import Mathlib

/-!
Shallow embedding of the `vgnr` crate (src/src/lib.rs), a Vigenère cipher
over an arbitrary character alphabet, together with proofs of the spec's
claims about it.

Rust strings are modelled as `List Char`; a Rust panic is modelled as
`Except.error` carrying the panic message, so every fallible operation
returns `Except String _`.
-/

namespace Vgnr

/-- The Vigenère alphabet length (`ALPHABET_LEN` in the source). -/
def ALPHABET_LEN : Nat := 26

/-- The Vigenère alphabet (`ALPHABET` in the source). -/
def ALPHABET : List Char :=
  ['a', 'b', 'c', 'd', 'e', 'f', 'g', 'h', 'i', 'j', 'k', 'l', 'm', 'n',
   'o', 'p', 'q', 'r', 's', 't', 'u', 'v', 'w', 'x', 'y', 'z']

/-- Model of Rust `Iterator::position`: the first index at which the
predicate holds, `none` when it never holds. -/
def position (p : Char → Bool) : List Char → Option Nat
  | [] => none
  | a :: l => if p a then some 0 else (position p l).map (fun i => i + 1)

/-- The matrix builder `Vigenere::matrix`: cell `(i, j)` holds
`alphabet[(i + j) % N]`; the source initializes every cell with `'A'`
before overwriting, which `getD`'s default mirrors. -/
def matrix (alphabet : List Char) : List (List Char) :=
  (List.range alphabet.length).map (fun i =>
    (List.range alphabet.length).map (fun j =>
      alphabet.getD ((i + j) % alphabet.length) 'A'))

/-- The Vigenère cipher scheme (`struct Vigenere`). -/
structure Vigenere where
  alphabet : List Char
  matrix : List (List Char)
  key : List Char

/-- `Vigenere::with_alphabet`: build the matrix from the alphabet and store
alphabet, matrix and key. -/
def with_alphabet (key : List Char) (alphabet : List Char) : Vigenere :=
  { alphabet := alphabet, matrix := matrix alphabet, key := key }

/-- `Vigenere::new`: the canonical lowercase Latin alphabet. -/
def Vigenere.new (key : List Char) : Vigenere :=
  with_alphabet key ALPHABET

/-- Rust `String::len`: the UTF-8 byte length of a string, the sum of the
UTF-8 sizes of its characters. Distinct from the character count whenever a
multibyte character is present. -/
def utf8Len (s : List Char) : Nat := (s.map Char.utf8Size).sum

/-- Panic message of the key-membership `expect` in encrypt/decrypt. -/
def keyErr : String :=
  "The key contains characters that are not in the Vigenère alphabet."

/-- Panic message of the plaintext-membership `expect` in encrypt. -/
def plaintextErr : String :=
  "The plaintext contains characters that are not in the Vigenère alphabet."

/-- Panic message of the ciphertext-membership `expect` in decrypt. -/
def ciphertextErr : String :=
  "The ciphertext contains characters that are not in the Vigenère alphabet."

/-- Rust panic message for `%` with a zero divisor. -/
def remZeroErr : String :=
  "attempt to calculate the remainder with a divisor of zero"

/-- Rust panic message for `Option::unwrap` on `None`. -/
def unwrapErr : String :=
  "called Option::unwrap on a None value"

/-- One iteration of the `pad_key` loop: `key.chars().nth(i % key_len).unwrap()`.
The modulus `key_len` is `self.key.len()`, the UTF-8 BYTE length of the key,
while `nth` counts characters, so `i % 0` panics on an empty key and `unwrap`
panics whenever the byte-based index runs past the key's character count
(which happens exactly when the key holds a multibyte character). -/
def padKeyChar (key : List Char) (i : Nat) : Except String Char :=
  if utf8Len key = 0 then Except.error remZeroErr
  else
    match key[i % utf8Len key]? with
    | some c => Except.ok c
    | none => Except.error unwrapErr

/-- Run a fallible per-element computation over a list, collecting results in
order and stopping at the first error, as the source's `for` loops do. -/
def collectE {α β : Type} (f : α → Except String β) : List α → Except String (List β)
  | [] => Except.ok []
  | a :: l =>
    match f a with
    | Except.error e => Except.error e
    | Except.ok b =>
      match collectE f l with
      | Except.error e => Except.error e
      | Except.ok bs => Except.ok (b :: bs)

/-- The `pad_key` loop once `message_len` has been computed: one key-stream
symbol per iteration `i` in `0..message_len`. -/
def padKeyLen (key : List Char) (messageLen : Nat) : Except String (List Char) :=
  collectE (padKeyChar key) (List.range messageLen)

/-- `Vigenere::pad_key`: the loop runs for `message.len()` iterations, the
message's UTF-8 byte length, not its character count. -/
def pad_key (key : List Char) (message : List Char) : Except String (List Char) :=
  padKeyLen key (utf8Len message)

/-- Body of the encrypt loop: look up the row of the key-stream symbol and the
column of the plaintext symbol, then emit `matrix[row][col]`. -/
def Vigenere.encryptChar (v : Vigenere) (p k : Char) : Except String Char :=
  match position (fun c => c == k) v.alphabet with
  | none => Except.error keyErr
  | some row =>
    match position (fun c => c == p) v.alphabet with
    | none => Except.error plaintextErr
    | some col => Except.ok ((v.matrix.getD row []).getD col 'A')

/-- `Vigenere::encrypt`. -/
def Vigenere.encrypt (v : Vigenere) (plaintext : List Char) : Except String (List Char) :=
  match pad_key v.key plaintext with
  | Except.error e => Except.error e
  | Except.ok padded =>
    collectE (fun pk => v.encryptChar pk.1 pk.2) (plaintext.zip padded)

/-- Body of the decrypt loop: look up the row of the key-stream symbol, search
that matrix row for the ciphertext symbol, and emit `alphabet[col]`. -/
def Vigenere.decryptChar (v : Vigenere) (c k : Char) : Except String Char :=
  match position (fun x => x == k) v.alphabet with
  | none => Except.error keyErr
  | some row =>
    match position (fun x => x == c) (v.matrix.getD row []) with
    | none => Except.error ciphertextErr
    | some col => Except.ok (v.alphabet.getD col 'A')

/-- `Vigenere::decrypt`. -/
def Vigenere.decrypt (v : Vigenere) (ciphertext : List Char) : Except String (List Char) :=
  match pad_key v.key ciphertext with
  | Except.error e => Except.error e
  | Except.ok padded =>
    collectE (fun ck => v.decryptChar ck.1 ck.2) (ciphertext.zip padded)

theorem position_nil (p : Char → Bool) : position p [] = none := rfl

theorem position_cons (p : Char → Bool) (a : Char) (l : List Char) :
    position p (a :: l) = if p a then some 0 else (position p l).map (fun i => i + 1) := rfl

theorem position_eq_some_iff (p : Char → Bool) :
    ∀ (l : List Char) (i : Nat),
      position p l = some i ↔
        (i < l.length ∧ p (l.getD i 'A') = true ∧ ∀ j, j < i → p (l.getD j 'A') = false) := by
  intro l
  induction l with
  | nil => intro i; simp [position_nil]
  | cons a l ih =>
    intro i
    by_cases hpa : p a
    · rw [position_cons, if_pos hpa]
      cases i with
      | zero => simp [hpa]
      | succ k =>
        constructor
        · intro h; exact absurd h (by simp)
        · rintro ⟨-, -, hall⟩
          have h0 := hall 0 (Nat.succ_pos k)
          rw [List.getD_cons_zero] at h0
          rw [hpa] at h0
          exact absurd h0 (by simp)
    · rw [position_cons, if_neg hpa]
      cases i with
      | zero =>
        simp only [Option.map_eq_some']
        constructor
        · rintro ⟨a', -, h⟩; exact absurd h (by omega)
        · rintro ⟨-, h2, -⟩
          rw [List.getD_cons_zero] at h2
          exact absurd h2 hpa
      | succ k =>
        simp only [Option.map_eq_some']
        constructor
        · rintro ⟨i', hi', hk⟩
          obtain ⟨h1, h2, h3⟩ := (ih i').mp hi'
          have hik : k = i' := by omega
          subst hik
          refine ⟨by simp; omega, by simpa using h2, ?_⟩
          intro j hj
          cases j with
          | zero => simpa [Bool.not_eq_true] using hpa
          | succ j' => simpa using h3 j' (by omega)
        · rintro ⟨h1, h2, h3⟩
          refine ⟨k, (ih k).mpr ⟨by simp at h1; omega, by simpa using h2, ?_⟩, rfl⟩
          intro j hj
          have := h3 (j + 1) (by omega)
          simpa using this


theorem position_eq_none_iff (p : Char → Bool) :
    ∀ l : List Char, position p l = none ↔ ∀ c ∈ l, p c = false := by
  intro l
  induction l with
  | nil => simp [position_nil]
  | cons a l ih =>
    rw [position_cons]
    by_cases hpa : p a
    · simp [hpa]
    · simp only [if_neg hpa, Option.map_eq_none', ih]
      constructor
      · intro h c hc
        rcases List.mem_cons.mp hc with rfl | hc'
        · exact Bool.not_eq_true _ |>.mp hpa
        · exact h c hc'
      · intro h c hc
        exact h c (List.mem_cons_of_mem a hc)

theorem position_beq_eq_none (a : Char) (l : List Char) :
    position (fun c => c == a) l = none ↔ a ∉ l := by
  rw [position_eq_none_iff]
  constructor
  · intro h ha
    have := h a ha
    simp at this
  · intro ha c hc
    by_cases hca : c = a
    · exact absurd (hca ▸ hc) ha
    · simp [hca]

theorem position_beq_isSome (a : Char) (l : List Char) (ha : a ∈ l) :
    ∃ i, position (fun c => c == a) l = some i := by
  cases hp : position (fun c => c == a) l with
  | none => exact absurd ((position_beq_eq_none a l).mp hp) (by simp [ha])
  | some i => exact ⟨i, rfl⟩

theorem position_beq_getD (a : Char) (l : List Char) (i : Nat)
    (h : position (fun c => c == a) l = some i) :
    i < l.length ∧ l.getD i 'A' = a := by
  obtain ⟨h1, h2, -⟩ := (position_eq_some_iff _ l i).mp h
  exact ⟨h1, by simpa using h2⟩

theorem collectE_ok_of {α β : Type} (f : α → Except String β) (g : α → β) :
    ∀ l : List α, (∀ a ∈ l, f a = Except.ok (g a)) → collectE f l = Except.ok (l.map g) := by
  intro l
  induction l with
  | nil => intro; rfl
  | cons a l ih =>
    intro h
    rw [List.map_cons]
    show (match f a with
      | Except.error e => Except.error e
      | Except.ok b =>
        match collectE f l with
        | Except.error e => Except.error e
        | Except.ok bs => Except.ok (b :: bs)) = _
    rw [h a (List.mem_cons_self a l), ih (fun x hx => h x (List.mem_cons_of_mem a hx))]

theorem collectE_length {α β : Type} (f : α → Except String β) :
    ∀ (l : List α) (out : List β), collectE f l = Except.ok out → out.length = l.length := by
  intro l
  induction l with
  | nil => intro out h; cases h; rfl
  | cons a l ih =>
    intro out h
    rw [show collectE f (a :: l) = (match f a with
      | Except.error e => Except.error e
      | Except.ok b =>
        match collectE f l with
        | Except.error e => Except.error e
        | Except.ok bs => Except.ok (b :: bs)) from rfl] at h
    cases hfa : f a with
    | error e => rw [hfa] at h; cases h
    | ok b =>
      rw [hfa] at h
      cases hcl : collectE f l with
      | error e => rw [hcl] at h; cases h
      | ok bs =>
        rw [hcl] at h
        cases h
        simp [ih bs hcl]


theorem collectE_cons_eq {α β : Type} (f : α → Except String β) (a : α) (l : List α) :
    collectE f (a :: l) = (match f a with
      | Except.error e => Except.error e
      | Except.ok b =>
        match collectE f l with
        | Except.error e => Except.error e
        | Except.ok bs => Except.ok (b :: bs)) := rfl

theorem collectE_getD {α β : Type} (f : α → Except String β) (d : α) (d' : β) :
    ∀ (l : List α) (out : List β), collectE f l = Except.ok out →
      ∀ i, i < l.length → f (l.getD i d) = Except.ok (out.getD i d') := by
  intro l
  induction l with
  | nil => intro out _ i hi; simp at hi
  | cons a l ih =>
    intro out h i hi
    rw [collectE_cons_eq] at h
    cases hfa : f a with
    | error e => rw [hfa] at h; cases h
    | ok b =>
      rw [hfa] at h
      cases hcl : collectE f l with
      | error e => rw [hcl] at h; cases h
      | ok bs =>
        rw [hcl] at h
        cases h
        cases i with
        | zero => simpa using hfa
        | succ j =>
          have := ih bs hcl j (by simpa using hi)
          simpa using this

theorem collectE_error_at {α β : Type} (f : α → Except String β) (d : α) :
    ∀ (l : List α) (i : Nat) (e : String), i < l.length →
      (∀ j, j < i → ∃ b, f (l.getD j d) = Except.ok b) →
      f (l.getD i d) = Except.error e → collectE f l = Except.error e := by
  intro l
  induction l with
  | nil => intro i e hi; simp at hi
  | cons a l ih =>
    intro i e hi hprev herr
    rw [collectE_cons_eq]
    cases i with
    | zero =>
      rw [List.getD_cons_zero] at herr
      rw [herr]
    | succ k =>
      obtain ⟨b, hb⟩ := hprev 0 (Nat.succ_pos k)
      rw [List.getD_cons_zero] at hb
      rw [hb]
      have hrec : collectE f l = Except.error e := by
        apply ih k e (by simpa using hi)
        · intro j hj
          have := hprev (j + 1) (by omega)
          simpa using this
        · simpa using herr
      rw [hrec]

theorem getD_map_range (f : Nat → Char) (n i : Nat) (h : i < n) :
    ((List.range n).map f).getD i 'A' = f i := by
  rw [List.getD_eq_getElem _ _ (by simpa using h)]
  simp

theorem length_le_utf8Len (l : List Char) : l.length ≤ utf8Len l := by
  unfold utf8Len
  induction l with
  | nil => simp
  | cons a l ih =>
    simp only [List.map_cons, List.sum_cons, List.length_cons]
    have := Char.utf8Size_pos a
    omega

theorem utf8Len_pos (l : List Char) (h : l ≠ []) : 0 < utf8Len l := by
  have h1 := length_le_utf8Len l
  have h2 := List.length_pos.mpr h
  omega

theorem utf8Len_of_single_byte (l : List Char) (h : ∀ c ∈ l, c.utf8Size = 1) :
    utf8Len l = l.length := by
  unfold utf8Len
  induction l with
  | nil => rfl
  | cons a l ih =>
    simp only [List.map_cons, List.sum_cons, List.length_cons]
    rw [h a (List.mem_cons_self a l),
        show ((l.map Char.utf8Size).sum = l.length) from
          ih (fun c hc => h c (List.mem_cons_of_mem a hc))]
    omega

theorem padKeyLen_ok (key : List Char) (n : Nat) (hkey : key ≠ [])
    (hbl : utf8Len key = key.length) :
    padKeyLen key n =
      Except.ok ((List.range n).map (fun i => key.getD (i % key.length) 'A')) := by
  unfold padKeyLen
  apply collectE_ok_of
  intro i _
  have hlen : key.length ≠ 0 := fun h => hkey (List.length_eq_zero.mp h)
  have hmod : i % key.length < key.length := Nat.mod_lt _ (Nat.pos_of_ne_zero hlen)
  unfold padKeyChar
  rw [hbl, if_neg hlen, List.getElem?_eq_getElem hmod]
  rw [List.getD_eq_getElem _ _ hmod]

theorem pad_key_ok (key message : List Char) (hkey : key ≠ [])
    (hbl : utf8Len key = key.length) :
    pad_key key message =
      Except.ok ((List.range (utf8Len message)).map
        (fun i => key.getD (i % key.length) 'A')) :=
  padKeyLen_ok key (utf8Len message) hkey hbl

theorem zip_congr_right (ms : List Char) :
    ∀ (ks1 ks2 : List Char), ms.length ≤ ks1.length → ms.length ≤ ks2.length →
      (∀ i, i < ms.length → ks1.getD i 'A' = ks2.getD i 'A') →
      ms.zip ks1 = ms.zip ks2 := by
  induction ms with
  | nil => intro ks1 ks2 _ _ _; simp
  | cons p ms ih =>
    intro ks1 ks2 h1 h2 hag
    cases ks1 with
    | nil => simp at h1
    | cons k1 ks1 =>
      cases ks2 with
      | nil => simp at h2
      | cons k2 ks2 =>
        have h0 := hag 0 (by simp)
        simp only [List.getD_cons_zero] at h0
        have hrest := ih ks1 ks2 (by simpa using h1) (by simpa using h2)
          (fun i hi => by
            simpa using hag (i + 1) (by simp only [List.length_cons]; omega))
        rw [List.zip_cons_cons, List.zip_cons_cons, h0, hrest]

theorem length_matrix (alphabet : List Char) : (matrix alphabet).length = alphabet.length := by
  simp [matrix]

theorem matrix_row (alphabet : List Char) (i : Nat) (h : i < alphabet.length) :
    (matrix alphabet).getD i [] =
      (List.range alphabet.length).map (fun j => alphabet.getD ((i + j) % alphabet.length) 'A') := by
  rw [List.getD_eq_getElem _ _ (by simpa [length_matrix] using h)]
  simp [matrix]

theorem length_matrix_row (alphabet : List Char) (i : Nat) (h : i < alphabet.length) :
    ((matrix alphabet).getD i []).length = alphabet.length := by
  rw [matrix_row alphabet i h]
  simp

theorem matrix_getD (alphabet : List Char) (i j : Nat)
    (hi : i < alphabet.length) (hj : j < alphabet.length) :
    ((matrix alphabet).getD i []).getD j 'A' =
      alphabet.getD ((i + j) % alphabet.length) 'A' := by
  rw [matrix_row alphabet i hi, getD_map_range _ _ _ hj]

theorem mem_of_mem_matrix_row (alphabet : List Char) (i : Nat) (c : Char)
    (hi : i < alphabet.length) (hc : c ∈ (matrix alphabet).getD i []) : c ∈ alphabet := by
  rw [matrix_row alphabet i hi] at hc
  obtain ⟨j, hj, rfl⟩ := List.mem_map.mp hc
  have hn : 0 < alphabet.length := by omega
  have hmod : (i + j) % alphabet.length < alphabet.length := Nat.mod_lt _ hn
  rw [List.getD_eq_getElem _ _ hmod]
  exact List.getElem_mem hmod


theorem encryptChar_some (v : Vigenere) (p k : Char) (row col : Nat)
    (h1 : position (fun c => c == k) v.alphabet = some row)
    (h2 : position (fun c => c == p) v.alphabet = some col) :
    v.encryptChar p k = Except.ok ((v.matrix.getD row []).getD col 'A') := by
  unfold Vigenere.encryptChar
  rw [h1, h2]

theorem encryptChar_keyErr (v : Vigenere) (p k : Char)
    (h1 : position (fun c => c == k) v.alphabet = none) :
    v.encryptChar p k = Except.error keyErr := by
  unfold Vigenere.encryptChar
  rw [h1]

theorem encryptChar_plaintextErr (v : Vigenere) (p k : Char) (row : Nat)
    (h1 : position (fun c => c == k) v.alphabet = some row)
    (h2 : position (fun c => c == p) v.alphabet = none) :
    v.encryptChar p k = Except.error plaintextErr := by
  unfold Vigenere.encryptChar
  rw [h1, h2]

theorem decryptChar_some (v : Vigenere) (c k : Char) (row col : Nat)
    (h1 : position (fun x => x == k) v.alphabet = some row)
    (h2 : position (fun x => x == c) (v.matrix.getD row []) = some col) :
    v.decryptChar c k = Except.ok (v.alphabet.getD col 'A') := by
  unfold Vigenere.decryptChar
  rw [h1]
  show (match position (fun x => x == c) (v.matrix.getD row []) with
    | none => Except.error ciphertextErr
    | some col => Except.ok (v.alphabet.getD col 'A')) = _
  rw [h2]

theorem decryptChar_keyErr (v : Vigenere) (c k : Char)
    (h1 : position (fun x => x == k) v.alphabet = none) :
    v.decryptChar c k = Except.error keyErr := by
  unfold Vigenere.decryptChar
  rw [h1]

theorem decryptChar_ciphertextErr (v : Vigenere) (c k : Char) (row : Nat)
    (h1 : position (fun x => x == k) v.alphabet = some row)
    (h2 : position (fun x => x == c) (v.matrix.getD row []) = none) :
    v.decryptChar c k = Except.error ciphertextErr := by
  unfold Vigenere.decryptChar
  rw [h1]
  show (match position (fun x => x == c) (v.matrix.getD row []) with
    | none => Except.error ciphertextErr
    | some col => Except.ok (v.alphabet.getD col 'A')) = _
  rw [h2]

theorem encryptChar_eq (alphabet key : List Char) (p k : Char)
    (hp : p ∈ alphabet) (hk : k ∈ alphabet) :
    ∃ row col, position (fun c => c == k) alphabet = some row ∧
      position (fun c => c == p) alphabet = some col ∧
      row < alphabet.length ∧ col < alphabet.length ∧
      (with_alphabet key alphabet).encryptChar p k =
        Except.ok (alphabet.getD ((row + col) % alphabet.length) 'A') := by
  obtain ⟨row, hrow⟩ := position_beq_isSome k alphabet hk
  obtain ⟨col, hcol⟩ := position_beq_isSome p alphabet hp
  obtain ⟨hrlt, -⟩ := position_beq_getD k alphabet row hrow
  obtain ⟨hclt, -⟩ := position_beq_getD p alphabet col hcol
  refine ⟨row, col, hrow, hcol, hrlt, hclt, ?_⟩
  rw [encryptChar_some (with_alphabet key alphabet) p k row col hrow hcol]
  rw [show (with_alphabet key alphabet).matrix = matrix alphabet from rfl]
  rw [matrix_getD alphabet row col hrlt hclt]

theorem decryptChar_encryptChar (alphabet key : List Char) (hnd : alphabet.Nodup)
    (p k : Char) (hp : p ∈ alphabet) (hk : k ∈ alphabet) :
    ∃ c, (with_alphabet key alphabet).encryptChar p k = Except.ok c ∧
         (with_alphabet key alphabet).decryptChar c k = Except.ok p := by
  obtain ⟨row, col, hrow, hcol, hrlt, hclt, henc⟩ :=
    encryptChar_eq alphabet key p k hp hk
  have hN : 0 < alphabet.length := by omega
  refine ⟨alphabet.getD ((row + col) % alphabet.length) 'A', henc, ?_⟩
  have hfind : position (fun x => x == alphabet.getD ((row + col) % alphabet.length) 'A')
      ((matrix alphabet).getD row []) = some col := by
    rw [position_eq_some_iff]
    refine ⟨by rw [length_matrix_row alphabet row hrlt]; exact hclt, ?_, ?_⟩
    · rw [matrix_getD alphabet row col hrlt hclt]
      simp
    · intro j hj
      have hjlt : j < alphabet.length := by omega
      rw [matrix_getD alphabet row j hrlt hjlt]
      by_contra hbad
      rw [Bool.not_eq_false, beq_iff_eq] at hbad
      have hm1 : (row + j) % alphabet.length < alphabet.length := Nat.mod_lt _ hN
      have hm2 : (row + col) % alphabet.length < alphabet.length := Nat.mod_lt _ hN
      rw [List.getD_eq_getElem _ _ hm1, List.getD_eq_getElem _ _ hm2] at hbad
      have hidx : (row + j) % alphabet.length = (row + col) % alphabet.length :=
        (hnd.getElem_inj_iff).mp hbad
      have hjc : j % alphabet.length = col % alphabet.length :=
        Nat.ModEq.add_left_cancel' row hidx
      rw [Nat.mod_eq_of_lt hjlt, Nat.mod_eq_of_lt hclt] at hjc
      omega
  rw [decryptChar_some (with_alphabet key alphabet) _ k row col hrow
      (by rw [show (with_alphabet key alphabet).matrix = matrix alphabet from rfl]; exact hfind)]
  obtain ⟨-, hcolval⟩ := position_beq_getD p alphabet col hcol
  rw [show (with_alphabet key alphabet).alphabet = alphabet from rfl, hcolval]


theorem round_zip (alphabet key : List Char) (hnd : alphabet.Nodup) :
    ∀ (ms ks : List Char), ms.length = ks.length →
      (∀ c ∈ ms, c ∈ alphabet) → (∀ c ∈ ks, c ∈ alphabet) →
      ∃ cs, collectE (fun pk => (with_alphabet key alphabet).encryptChar pk.1 pk.2)
              (ms.zip ks) = Except.ok cs ∧
            cs.length = ms.length ∧
            collectE (fun ck => (with_alphabet key alphabet).decryptChar ck.1 ck.2)
              (cs.zip ks) = Except.ok ms := by
  intro ms
  induction ms with
  | nil =>
    intro ks hlen _ _
    cases ks with
    | nil => exact ⟨[], rfl, rfl, rfl⟩
    | cons k ks' => simp at hlen
  | cons p ms ih =>
    intro ks hlen hms hks
    cases ks with
    | nil => simp at hlen
    | cons k ks' =>
      obtain ⟨c, hce, hcd⟩ := decryptChar_encryptChar alphabet key hnd p k
        (hms p (List.mem_cons_self p ms)) (hks k (List.mem_cons_self k ks'))
      obtain ⟨cs, h1, h2, h3⟩ := ih ks' (by simpa using hlen)
        (fun x hx => hms x (List.mem_cons_of_mem p hx))
        (fun x hx => hks x (List.mem_cons_of_mem k hx))
      refine ⟨c :: cs, ?_, by simp [h2], ?_⟩
      · rw [List.zip_cons_cons, collectE_cons_eq, hce, h1]
      · rw [List.zip_cons_cons, collectE_cons_eq, hcd, h3]

/-- Counterexample to claim C1 as stated: the alphabet é, à is duplicate
free, the key é is non-empty with all symbols in the alphabet, and the
message à has all symbols in the alphabet, yet encryption does not round
trip: pad_key uses the key's UTF-8 byte length 2 as the modulus while nth
counts characters, so the unwrap panics instead. -/
theorem round_trip_counterexample :
    (['é', 'à'] : List Char).Nodup ∧
    (['é'] : List Char) ≠ [] ∧
    (∀ c ∈ (['é'] : List Char), c ∈ (['é', 'à'] : List Char)) ∧
    (∀ c ∈ (['à'] : List Char), c ∈ (['é', 'à'] : List Char)) ∧
    (with_alphabet ['é'] ['é', 'à']).encrypt ['à'] = Except.error unwrapErr ∧
    ∀ ct : List Char, (with_alphabet ['é'] ['é', 'à']).encrypt ['à'] ≠ Except.ok ct :=
  ⟨by decide, by decide, by decide, by decide, rfl, by
    intro ct h
    rw [show (with_alphabet ['é'] ['é', 'à']).encrypt ['à'] = Except.error unwrapErr
      from rfl] at h
    exact Except.noConfusion h⟩

/-- Claim C1 as amended: for every duplicate-free alphabet, every non-empty
key whose symbols lie in the alphabet and are all single-byte characters (so
the byte-length key-stream modulus stays within the key's character count),
and every message whose symbols lie in the alphabet, decrypting the
encryption of the message with the same cipher instance returns the original
message. -/
theorem decrypt_encrypt_round_trip (alphabet key m : List Char)
    (hnd : alphabet.Nodup) (hkey : key ≠ [])
    (hascii : ∀ c ∈ key, c.utf8Size = 1)
    (hks : ∀ c ∈ key, c ∈ alphabet) (hm : ∀ c ∈ m, c ∈ alphabet) :
    ∃ ct, (with_alphabet key alphabet).encrypt m = Except.ok ct ∧
          (with_alphabet key alphabet).decrypt ct = Except.ok m := by
  have hklen : 0 < key.length := List.length_pos.mpr hkey
  have hbl : utf8Len key = key.length := utf8Len_of_single_byte key hascii
  set P := (List.range m.length).map (fun i => key.getD (i % key.length) 'A')
    with hPdef
  have hPlen : P.length = m.length := by simp [hPdef]
  have hPmem : ∀ c ∈ P, c ∈ alphabet := by
    intro c hc
    rw [hPdef] at hc
    obtain ⟨i, hi, rfl⟩ := List.mem_map.mp hc
    apply hks
    have hmod : i % key.length < key.length := Nat.mod_lt _ hklen
    rw [List.getD_eq_getElem _ _ hmod]
    exact List.getElem_mem hmod
  obtain ⟨cs, h1, h2, h3⟩ := round_zip alphabet key hnd m P hPlen.symm hm hPmem
  have hzip : ∀ msg : List Char, msg.length = m.length →
      msg.zip ((List.range (utf8Len msg)).map (fun i => key.getD (i % key.length) 'A'))
        = msg.zip P := by
    intro msg hmsg
    apply zip_congr_right
    · rw [List.length_map, List.length_range]
      exact hmsg ▸ length_le_utf8Len msg
    · omega
    · intro i hi
      rw [getD_map_range _ _ i (by have := length_le_utf8Len msg; omega),
          hPdef, getD_map_range _ _ i (by omega)]
  refine ⟨cs, ?_, ?_⟩
  · unfold Vigenere.encrypt
    rw [show (with_alphabet key alphabet).key = key from rfl,
        pad_key_ok key m hkey hbl]
    show collectE (fun pk => (with_alphabet key alphabet).encryptChar pk.1 pk.2)
      (m.zip ((List.range (utf8Len m)).map (fun i => key.getD (i % key.length) 'A')))
        = Except.ok cs
    rw [hzip m rfl]
    exact h1
  · unfold Vigenere.decrypt
    rw [show (with_alphabet key alphabet).key = key from rfl,
        pad_key_ok key cs hkey hbl]
    show collectE (fun ck => (with_alphabet key alphabet).decryptChar ck.1 ck.2)
      (cs.zip ((List.range (utf8Len cs)).map (fun i => key.getD (i % key.length) 'A')))
        = Except.ok m
    rw [hzip cs h2]
    exact h3

/-- Witness for C1 at the canonical alphabet, key lemon, message attackatdawn. -/
theorem decrypt_encrypt_round_trip_witness :
    ∃ ct, (with_alphabet ['l', 'e', 'm', 'o', 'n'] ALPHABET).encrypt
            ['a', 't', 't', 'a', 'c', 'k', 'a', 't', 'd', 'a', 'w', 'n'] = Except.ok ct ∧
          (with_alphabet ['l', 'e', 'm', 'o', 'n'] ALPHABET).decrypt ct =
            Except.ok ['a', 't', 't', 'a', 'c', 'k', 'a', 't', 'd', 'a', 'w', 'n'] :=
  decrypt_encrypt_round_trip ALPHABET ['l', 'e', 'm', 'o', 'n']
    ['a', 't', 't', 'a', 'c', 'k', 'a', 't', 'd', 'a', 'w', 'n']
    (by decide) (by decide) (by decide) (by decide) (by decide)


theorem map_range_getD (l : List Char) :
    (List.range l.length).map (fun j => l.getD j 'A') = l := by
  apply List.ext_getElem
  · simp
  · intro i h1 h2
    simp only [List.getElem_map, List.getElem_range]
    rw [List.getD_eq_getElem _ _ (by simpa using h1)]

/-- Claim C2: for every alphabet of size at least one, the substitution matrix
satisfies matrix[i][j] = alphabet[(i+j) mod N]; row 0 is the alphabet itself
and each later row is the previous row rotated left by one, with no
distinctness assumption on the symbols. -/
theorem matrix_spec (alphabet : List Char) (hN : 1 ≤ alphabet.length) :
    (∀ i j, i < alphabet.length → j < alphabet.length →
      ((matrix alphabet).getD i []).getD j 'A' =
        alphabet.getD ((i + j) % alphabet.length) 'A')
    ∧ (matrix alphabet).getD 0 [] = alphabet
    ∧ (∀ i, i + 1 < alphabet.length →
        (matrix alphabet).getD (i + 1) [] = ((matrix alphabet).getD i []).rotate 1) := by
  refine ⟨fun i j hi hj => matrix_getD alphabet i j hi hj, ?_, ?_⟩
  · rw [matrix_row alphabet 0 (by omega)]
    have : (fun j => alphabet.getD ((0 + j) % alphabet.length) 'A') =
        (fun j => alphabet.getD j 'A') ∘ (fun j => (0 + j) % alphabet.length) := rfl
    calc (List.range alphabet.length).map
          (fun j => alphabet.getD ((0 + j) % alphabet.length) 'A')
        = (List.range alphabet.length).map (fun j => alphabet.getD j 'A') := by
          apply List.map_congr_left
          intro j hj
          rw [Nat.zero_add, Nat.mod_eq_of_lt (by simpa using hj)]
      _ = alphabet := map_range_getD alphabet
  · intro i hi
    have hi' : i < alphabet.length := by omega
    rw [matrix_row alphabet (i + 1) hi, matrix_row alphabet i hi']
    apply List.ext_getElem
    · simp
    · intro j h1 h2
      have hjN : j < alphabet.length := by simpa using h1
      rw [List.getElem_rotate]
      simp only [List.getElem_map, List.getElem_range, List.length_map, List.length_range]
      rw [Nat.add_mod_mod]
      have harith : i + (j + 1) = i + 1 + j := by omega
      rw [harith]


/-- Witness for C2 at the duplicate-carrying CAESAR alphabet. -/
theorem matrix_spec_witness :
    1 ≤ (['C', 'A', 'E', 'S', 'A', 'R'] : List Char).length ∧
    ((∀ i j, i < (['C', 'A', 'E', 'S', 'A', 'R'] : List Char).length →
        j < (['C', 'A', 'E', 'S', 'A', 'R'] : List Char).length →
      ((matrix ['C', 'A', 'E', 'S', 'A', 'R']).getD i []).getD j 'A' =
        (['C', 'A', 'E', 'S', 'A', 'R'] : List Char).getD
          ((i + j) % (['C', 'A', 'E', 'S', 'A', 'R'] : List Char).length) 'A')
    ∧ (matrix ['C', 'A', 'E', 'S', 'A', 'R']).getD 0 [] = ['C', 'A', 'E', 'S', 'A', 'R']
    ∧ (∀ i, i + 1 < (['C', 'A', 'E', 'S', 'A', 'R'] : List Char).length →
        (matrix ['C', 'A', 'E', 'S', 'A', 'R']).getD (i + 1) [] =
          ((matrix ['C', 'A', 'E', 'S', 'A', 'R']).getD i []).rotate 1)) :=
  ⟨by decide, matrix_spec ['C', 'A', 'E', 'S', 'A', 'R'] (by decide)⟩

theorem collectE_ok_exists {α β : Type} (f : α → Except String β) :
    ∀ l : List α, (∀ a ∈ l, ∃ b, f a = Except.ok b) →
      ∃ out, collectE f l = Except.ok out := by
  intro l
  induction l with
  | nil => intro; exact ⟨[], rfl⟩
  | cons a l ih =>
    intro h
    obtain ⟨b, hb⟩ := h a (List.mem_cons_self a l)
    obtain ⟨bs, hbs⟩ := ih (fun x hx => h x (List.mem_cons_of_mem a hx))
    exact ⟨b :: bs, by rw [collectE_cons_eq, hb, hbs]⟩

theorem getD_zip (l1 l2 : List Char) (i : Nat) (h1 : i < l1.length) (h2 : i < l2.length) :
    (l1.zip l2).getD i ('A', 'A') = (l1.getD i 'A', l2.getD i 'A') := by
  rw [List.getD_eq_getElem _ _ (by rw [List.length_zip]; omega)]
  rw [List.getElem_zip]
  rw [List.getD_eq_getElem _ _ h1, List.getD_eq_getElem _ _ h2]

theorem getD_mem (l : List Char) (i : Nat) (h : i < l.length) : l.getD i 'A' ∈ l := by
  rw [List.getD_eq_getElem _ _ h]
  exact List.getElem_mem h

theorem encrypt_characterization (alphabet key m : List Char) (hkey : key ≠ [])
    (hascii : ∀ c ∈ key, c.utf8Size = 1)
    (hks : ∀ c ∈ key, c ∈ alphabet) (hm : ∀ c ∈ m, c ∈ alphabet) :
    ∃ padded out, pad_key key m = Except.ok padded ∧
      (with_alphabet key alphabet).encrypt m = Except.ok out ∧
      out.length = m.length ∧
      ∀ i, i < m.length → ∃ row col,
        position (fun c => c == padded.getD i 'A') alphabet = some row ∧
        position (fun c => c == m.getD i 'A') alphabet = some col ∧
        out.getD i 'A' = ((matrix alphabet).getD row []).getD col 'A' := by
  have hklen : 0 < key.length := List.length_pos.mpr hkey
  have hbl : utf8Len key = key.length := utf8Len_of_single_byte key hascii
  have hmle : m.length ≤ utf8Len m := length_le_utf8Len m
  have hpk : pad_key key m =
      Except.ok ((List.range (utf8Len m)).map (fun i => key.getD (i % key.length) 'A')) :=
    pad_key_ok key m hkey hbl
  set padded := (List.range (utf8Len m)).map (fun i => key.getD (i % key.length) 'A')
    with hpdef
  have hplen : padded.length = utf8Len m := by simp [hpdef]
  have hpmem : ∀ c ∈ padded, c ∈ alphabet := by
    intro c hc
    rw [hpdef] at hc
    obtain ⟨i, hi, rfl⟩ := List.mem_map.mp hc
    apply hks
    exact getD_mem key _ (Nat.mod_lt _ hklen)
  have hziplen : (m.zip padded).length = m.length := by
    rw [List.length_zip, hplen]
    omega
  obtain ⟨out, hout⟩ := collectE_ok_exists
      (fun pk => (with_alphabet key alphabet).encryptChar pk.1 pk.2) (m.zip padded)
      (by
        intro pk hpk'
        obtain ⟨hp1, hp2⟩ := List.of_mem_zip hpk'
        obtain ⟨row, col, -, -, -, -, he⟩ :=
          encryptChar_eq alphabet key pk.1 pk.2 (hm _ hp1) (hpmem _ hp2)
        exact ⟨_, he⟩)
  have houtlen : out.length = m.length := by
    rw [collectE_length _ _ out hout, hziplen]
  refine ⟨padded, out, hpk, ?_, houtlen, ?_⟩
  · unfold Vigenere.encrypt
    rw [show (with_alphabet key alphabet).key = key from rfl, hpk]
    exact hout
  · intro i hi
    have hstep := collectE_getD
      (fun pk => (with_alphabet key alphabet).encryptChar pk.1 pk.2) ('A', 'A') 'A'
      (m.zip padded) out hout i (by omega)
    rw [getD_zip m padded i hi (by omega)] at hstep
    obtain ⟨row, col, hrow, hcol, hrlt, hclt, he⟩ :=
      encryptChar_eq alphabet key (m.getD i 'A') (padded.getD i 'A')
        (hm _ (getD_mem m i hi)) (hpmem _ (getD_mem padded i (by omega)))
    refine ⟨row, col, hrow, hcol, ?_⟩
    replace hstep : (with_alphabet key alphabet).encryptChar (m.getD i 'A')
        (padded.getD i 'A') = Except.ok (out.getD i 'A') := hstep
    rw [he] at hstep
    have : out.getD i 'A' = alphabet.getD ((row + col) % alphabet.length) 'A' := by
      exact (Except.ok.injEq _ _).mp hstep.symm
    rw [this, matrix_getD alphabet row col hrlt hclt]

/-- Counterexample to claim C3 as stated: the key é is non-empty and all its
symbols (and all message symbols) belong to the alphabet, yet encrypt does
not emit any matrix entries: the key-stream modulus is the key's UTF-8 byte
length 2 while nth counts characters, so pad_key's unwrap panics. -/
theorem encrypt_spec_counterexample :
    (['é'] : List Char) ≠ [] ∧
    (∀ c ∈ (['é'] : List Char), c ∈ (['é', 'à'] : List Char)) ∧
    (with_alphabet ['é'] ['é', 'à']).encrypt ['é'] = Except.error unwrapErr ∧
    ∀ out : List Char, (with_alphabet ['é'] ['é', 'à']).encrypt ['é'] ≠ Except.ok out :=
  ⟨by decide, by decide, rfl, by
    intro out h
    rw [show (with_alphabet ['é'] ['é', 'à']).encrypt ['é'] = Except.error unwrapErr
      from rfl] at h
    exact Except.noConfusion h⟩

/-- Claim C3 as amended: with all plaintext and key symbols in the alphabet,
a key that is non-empty whenever the plaintext is, and a key of single-byte
symbols (so the byte-length key-stream modulus stays within the key's
character count), encrypt succeeds, preserves the symbol count, and emits at
each position matrix[row][col], where row is the first alphabet index of the
key-stream symbol and col the first alphabet index of the plaintext symbol. -/
theorem encrypt_spec (alphabet key m : List Char) (hkey : m ≠ [] → key ≠ [])
    (hascii : ∀ c ∈ key, c.utf8Size = 1)
    (hks : ∀ c ∈ key, c ∈ alphabet) (hm : ∀ c ∈ m, c ∈ alphabet) :
    ∃ padded out, pad_key key m = Except.ok padded ∧
      (with_alphabet key alphabet).encrypt m = Except.ok out ∧
      out.length = m.length ∧
      ∀ i, i < m.length → ∃ row col,
        position (fun c => c == padded.getD i 'A') alphabet = some row ∧
        position (fun c => c == m.getD i 'A') alphabet = some col ∧
        out.getD i 'A' = ((matrix alphabet).getD row []).getD col 'A' := by
  cases hme : m with
  | nil => exact ⟨[], [], rfl, rfl, rfl, fun i hi => absurd hi (by simp)⟩
  | cons a l =>
    exact hme ▸ encrypt_characterization alphabet key m (hkey (by rw [hme]; simp))
      hascii hks hm

/-- Witness for C3 (amended) at the canonical alphabet, key lemon, message
attackatdawn. -/
theorem encrypt_spec_witness :
    ∃ padded out,
      pad_key ['l', 'e', 'm', 'o', 'n']
          ['a', 't', 't', 'a', 'c', 'k', 'a', 't', 'd', 'a', 'w', 'n'] =
        Except.ok padded ∧
      (with_alphabet ['l', 'e', 'm', 'o', 'n'] ALPHABET).encrypt
          ['a', 't', 't', 'a', 'c', 'k', 'a', 't', 'd', 'a', 'w', 'n'] = Except.ok out ∧
      out.length = (['a', 't', 't', 'a', 'c', 'k', 'a', 't', 'd', 'a', 'w', 'n'] : List Char).length ∧
      ∀ i, i < (['a', 't', 't', 'a', 'c', 'k', 'a', 't', 'd', 'a', 'w', 'n'] : List Char).length →
        ∃ row col,
          position (fun c => c == padded.getD i 'A') ALPHABET = some row ∧
          position (fun c => c ==
            (['a', 't', 't', 'a', 'c', 'k', 'a', 't', 'd', 'a', 'w', 'n'] : List Char).getD i 'A')
            ALPHABET = some col ∧
          out.getD i 'A' = ((matrix ALPHABET).getD row []).getD col 'A' :=
  encrypt_spec ALPHABET ['l', 'e', 'm', 'o', 'n']
    ['a', 't', 't', 'a', 'c', 'k', 'a', 't', 'd', 'a', 'w', 'n']
    (fun _ => by decide) (by decide) (by decide) (by decide)

/-- Counterexample to claim C4 as stated: the key é is non-empty, yet
expansion to requested length 2 panics in unwrap rather than returning two
symbols, because the modulus is the key's UTF-8 byte length 2 while nth
counts its single character. -/
theorem pad_key_multibyte_counterexample :
    (['é'] : List Char) ≠ [] ∧
    padKeyLen ['é'] 2 = Except.error unwrapErr ∧
    ∀ s : List Char, padKeyLen ['é'] 2 ≠ Except.ok s :=
  ⟨by decide, rfl, by
    intro s h
    rw [show padKeyLen ['é'] 2 = Except.error unwrapErr from rfl] at h
    exact Except.noConfusion h⟩

/-- Claim C4 as amended: key-stream expansion of a non-empty key all of whose
symbols are single-byte (so the byte-length modulus equals the symbol count)
returns, for any requested length, exactly that many symbols, position i
holding key[i mod key.length]; in particular key lemon expanded to length 12
gives lemonlemonle. -/
theorem pad_key_spec (key : List Char) (n : Nat) (hkey : key ≠ [])
    (hascii : ∀ c ∈ key, c.utf8Size = 1) :
    (∃ s, padKeyLen key n = Except.ok s ∧ s.length = n ∧
      ∀ i, i < n → s.getD i 'A' = key.getD (i % key.length) 'A')
    ∧ padKeyLen ['l', 'e', 'm', 'o', 'n'] 12 =
        Except.ok ['l', 'e', 'm', 'o', 'n', 'l', 'e', 'm', 'o', 'n', 'l', 'e'] := by
  constructor
  · refine ⟨_, padKeyLen_ok key n hkey (utf8Len_of_single_byte key hascii), by simp, ?_⟩
    intro i hi
    exact getD_map_range _ n i hi
  · rfl

/-- Witness for C4 (amended) at key lemon and length 12. -/
theorem pad_key_spec_witness :
    (['l', 'e', 'm', 'o', 'n'] : List Char) ≠ [] ∧
    ((∃ s, padKeyLen ['l', 'e', 'm', 'o', 'n'] 12 = Except.ok s ∧ s.length = 12 ∧
      ∀ i, i < 12 → s.getD i 'A' =
        (['l', 'e', 'm', 'o', 'n'] : List Char).getD
          (i % (['l', 'e', 'm', 'o', 'n'] : List Char).length) 'A')
    ∧ padKeyLen ['l', 'e', 'm', 'o', 'n'] 12 =
        Except.ok ['l', 'e', 'm', 'o', 'n', 'l', 'e', 'm', 'o', 'n', 'l', 'e']) :=
  ⟨by decide, pad_key_spec ['l', 'e', 'm', 'o', 'n'] 12 (by decide) (by decide)⟩


/-- Claim C7: with the canonical alphabet and key lemon, attackatdawn
encrypts to lxfopvefrnhr, and lxfopvefrnhr decrypts back to attackatdawn. -/
theorem canonical_vector :
    (Vigenere.new ['l', 'e', 'm', 'o', 'n']).encrypt
        ['a', 't', 't', 'a', 'c', 'k', 'a', 't', 'd', 'a', 'w', 'n'] =
      Except.ok ['l', 'x', 'f', 'o', 'p', 'v', 'e', 'f', 'r', 'n', 'h', 'r'] ∧
    (Vigenere.new ['l', 'e', 'm', 'o', 'n']).decrypt
        ['l', 'x', 'f', 'o', 'p', 'v', 'e', 'f', 'r', 'n', 'h', 'r'] =
      Except.ok ['a', 't', 't', 'a', 'c', 'k', 'a', 't', 'd', 'a', 'w', 'n'] :=
  ⟨rfl, rfl⟩

/-- Claim C9: the empty message encrypts and decrypts to the empty output for
every key and every alphabet, with no error, even when the key is empty or
holds symbols outside the alphabet. -/
theorem empty_message (key alphabet : List Char) :
    (with_alphabet key alphabet).encrypt [] = Except.ok [] ∧
    (with_alphabet key alphabet).decrypt [] = Except.ok [] :=
  ⟨rfl, rfl⟩

/-- Counterexample to claim C8 as stated: key d on attackatdawn yields
dwwdfndwgdzq, which differs from the claimed ciphertext dwwdfndwdqgq. -/
theorem caesar_example_counterexample :
    (Vigenere.new ['d']).encrypt ['a', 't', 't', 'a', 'c', 'k', 'a', 't', 'd', 'a', 'w', 'n'] =
      Except.ok ['d', 'w', 'w', 'd', 'f', 'n', 'd', 'w', 'g', 'd', 'z', 'q'] ∧
    (['d', 'w', 'w', 'd', 'f', 'n', 'd', 'w', 'g', 'd', 'z', 'q'] : List Char) ≠
      ['d', 'w', 'w', 'd', 'f', 'n', 'd', 'w', 'd', 'q', 'g', 'q'] :=
  ⟨rfl, by decide⟩


theorem ALPHABET_single_byte : ∀ c ∈ ALPHABET, c.utf8Size = 1 := by decide

/-- Claim C8 as amended: with the canonical alphabet, a length-1 key acts as
a Caesar shift by the index of the key symbol, the output symbol at each
position being the alphabet symbol at (index of plaintext symbol + index of
key symbol) mod 26; key d on attackatdawn yields dwwdfndwgdzq (the spec's
stated vector dwwdfndwdqgq is off in its last four symbols). -/
theorem single_letter_key_caesar (k : Char) (m : List Char)
    (hk : k ∈ ALPHABET) (hm : ∀ c ∈ m, c ∈ ALPHABET) :
    (∃ out, (Vigenere.new [k]).encrypt m = Except.ok out ∧ out.length = m.length ∧
      ∀ i, i < m.length → ∃ pi ki,
        position (fun c => c == m.getD i 'A') ALPHABET = some pi ∧
        position (fun c => c == k) ALPHABET = some ki ∧
        out.getD i 'A' = ALPHABET.getD ((pi + ki) % 26) 'A')
    ∧ (Vigenere.new ['d']).encrypt ['a', 't', 't', 'a', 'c', 'k', 'a', 't', 'd', 'a', 'w', 'n'] =
        Except.ok ['d', 'w', 'w', 'd', 'f', 'n', 'd', 'w', 'g', 'd', 'z', 'q'] := by
  constructor
  · have hascii : ∀ c ∈ ([k] : List Char), c.utf8Size = 1 := by
      intro c hc
      rw [List.mem_singleton] at hc
      rw [hc]
      exact ALPHABET_single_byte k hk
    obtain ⟨padded, out, hpk, henc, hlen, hchar⟩ :=
      encrypt_characterization ALPHABET [k] m (by simp) hascii
        (by intro c hc; rw [List.mem_singleton] at hc; rw [hc]; exact hk) hm
    have hpadval : ∀ i, i < m.length → padded.getD i 'A' = k := by
      intro i hi
      have := pad_key_ok [k] m (by simp) (utf8Len_of_single_byte [k] hascii)
      rw [this] at hpk
      have hpeq := (Except.ok.injEq _ _).mp hpk
      rw [← hpeq, getD_map_range _ _ i (lt_of_lt_of_le hi (length_le_utf8Len m))]
      rw [show ([k] : List Char).length = 1 from rfl, Nat.mod_one]
      rfl
    refine ⟨out, henc, hlen, ?_⟩
    intro i hi
    obtain ⟨row, col, hrow, hcol, hout⟩ := hchar i hi
    rw [hpadval i hi] at hrow
    obtain ⟨hrlt, -⟩ := position_beq_getD k ALPHABET row hrow
    obtain ⟨hclt, -⟩ := position_beq_getD (m.getD i 'A') ALPHABET col hcol
    refine ⟨col, row, hcol, hrow, ?_⟩
    rw [hout, matrix_getD ALPHABET row col hrlt hclt]
    have h26 : ALPHABET.length = 26 := rfl
    rw [h26, Nat.add_comm row col]
  · rfl

/-- Witness for C8 (amended) at key d and message attackatdawn. -/
theorem single_letter_key_caesar_witness :
    ('d' ∈ ALPHABET) ∧
    ((∃ out, (Vigenere.new ['d']).encrypt
          ['a', 't', 't', 'a', 'c', 'k', 'a', 't', 'd', 'a', 'w', 'n'] = Except.ok out ∧
        out.length = (['a', 't', 't', 'a', 'c', 'k', 'a', 't', 'd', 'a', 'w', 'n'] : List Char).length ∧
        ∀ i, i < (['a', 't', 't', 'a', 'c', 'k', 'a', 't', 'd', 'a', 'w', 'n'] : List Char).length →
          ∃ pi ki,
            position (fun c => c ==
              (['a', 't', 't', 'a', 'c', 'k', 'a', 't', 'd', 'a', 'w', 'n'] : List Char).getD i 'A')
              ALPHABET = some pi ∧
            position (fun c => c == 'd') ALPHABET = some ki ∧
            out.getD i 'A' = ALPHABET.getD ((pi + ki) % 26) 'A')
    ∧ (Vigenere.new ['d']).encrypt ['a', 't', 't', 'a', 'c', 'k', 'a', 't', 'd', 'a', 'w', 'n'] =
        Except.ok ['d', 'w', 'w', 'd', 'f', 'n', 'd', 'w', 'g', 'd', 'z', 'q']) :=
  ⟨by decide, single_letter_key_caesar 'd'
    ['a', 't', 't', 'a', 'c', 'k', 'a', 't', 'd', 'a', 'w', 'n'] (by decide) (by decide)⟩


theorem padKeyLen_empty_key (n : Nat) (hn : 0 < n) :
    padKeyLen [] n = Except.error remZeroErr := by
  unfold padKeyLen
  apply collectE_error_at (padKeyChar []) 0 (List.range n) 0 remZeroErr
  · simpa using hn
  · intro j hj; omega
  · rfl

/-- Counterexample to claim C6 as stated: the empty key is not guarded
against; encrypting a one-symbol message with an empty key reaches the
zero-modulus computation and fails with the divide-by-zero panic, not with
any EmptyKeyError. -/
theorem empty_key_counterexample :
    (Vigenere.new []).encrypt ['a'] = Except.error remZeroErr ∧
    remZeroErr = "attempt to calculate the remainder with a divisor of zero" :=
  ⟨rfl, rfl⟩

/-- Claim C6 as amended: no EmptyKeyError exists and nothing guards the empty
key; with an empty key and a non-empty message, both encrypt and decrypt
reach the zero-modulus key-stream computation and fail with the Rust
divide-by-zero panic. Only the empty message avoids the computation. -/
theorem empty_key_behavior (alphabet m : List Char) (hm : m ≠ []) :
    (with_alphabet [] alphabet).encrypt m = Except.error remZeroErr ∧
    (with_alphabet [] alphabet).decrypt m = Except.error remZeroErr := by
  have hlen : 0 < utf8Len m := utf8Len_pos m hm
  have hpad : pad_key [] m = Except.error remZeroErr :=
    padKeyLen_empty_key (utf8Len m) hlen
  constructor
  · unfold Vigenere.encrypt
    rw [show (with_alphabet [] alphabet).key = [] from rfl, hpad]
  · unfold Vigenere.decrypt
    rw [show (with_alphabet [] alphabet).key = [] from rfl, hpad]

/-- Witness for C6 (amended) at the canonical alphabet and message a. -/
theorem empty_key_behavior_witness :
    (['a'] : List Char) ≠ [] ∧
    ((with_alphabet [] ALPHABET).encrypt ['a'] = Except.error remZeroErr ∧
     (with_alphabet [] ALPHABET).decrypt ['a'] = Except.error remZeroErr) :=
  ⟨by decide, empty_key_behavior ALPHABET ['a'] (by decide)⟩


theorem mem_matrix_row_of_mem (alphabet : List Char) (row : Nat) (c : Char)
    (hrow : row < alphabet.length) (hc : c ∈ alphabet) :
    c ∈ (matrix alphabet).getD row [] := by
  obtain ⟨idx, hidx, hval⟩ := List.mem_iff_getElem.mp hc
  rw [matrix_row alphabet row hrow]
  apply List.mem_map.mpr
  have hN : 0 < alphabet.length := by omega
  refine ⟨(idx + (alphabet.length - row % alphabet.length)) % alphabet.length,
    List.mem_range.mpr (Nat.mod_lt _ hN), ?_⟩
  have hkey : (row + (idx + (alphabet.length - row % alphabet.length)) % alphabet.length)
      % alphabet.length = idx := by
    rw [Nat.add_mod_mod]
    have hdm := Nat.div_add_mod row alphabet.length
    have hrm : row % alphabet.length < alphabet.length := Nat.mod_lt _ hN
    have h2 : row + (idx + (alphabet.length - row % alphabet.length)) =
        idx + alphabet.length * (row / alphabet.length + 1) := by
      have hms : alphabet.length * (row / alphabet.length + 1) =
          alphabet.length * (row / alphabet.length) + alphabet.length := by ring
      omega
    rw [h2, Nat.add_mul_mod_self_left, Nat.mod_eq_of_lt hidx]
  rw [hkey, List.getD_eq_getElem _ _ hidx, hval]

theorem decryptChar_ok_of_mem (alphabet key : List Char) (c k : Char)
    (hc : c ∈ alphabet) (hk : k ∈ alphabet) :
    ∃ p, (with_alphabet key alphabet).decryptChar c k = Except.ok p := by
  obtain ⟨row, hrow⟩ := position_beq_isSome k alphabet hk
  obtain ⟨hrlt, -⟩ := position_beq_getD k alphabet row hrow
  have hmem : c ∈ (matrix alphabet).getD row [] :=
    mem_matrix_row_of_mem alphabet row c hrlt hc
  obtain ⟨col, hcol⟩ := position_beq_isSome c _ hmem
  exact ⟨_, decryptChar_some (with_alphabet key alphabet) c k row col hrow hcol⟩


/-- Counterexample to claim C5 as stated: two membership violations at
different symbols and different positions produce the identical failure
value, so the failure identifies neither the offending symbol nor its
position. -/
theorem membership_error_counterexample :
    (Vigenere.new ['l', 'e', 'm', 'o', 'n']).encrypt ['A'] = Except.error plaintextErr ∧
    (Vigenere.new ['l', 'e', 'm', 'o', 'n']).encrypt ['a', 'B'] = Except.error plaintextErr ∧
    ('A' : Char) ≠ 'B' ∧ (0 : Nat) ≠ 1 :=
  ⟨rfl, rfl, by decide, by decide⟩

/-- Claim C5 as amended: for a non-empty key of single-byte symbols (so the
key-stream expansion itself cannot panic first), a message symbol outside
the alphabet makes encrypt fail with the fixed plaintext membership error, a
ciphertext symbol outside the alphabet makes decrypt fail with the fixed
ciphertext membership error, and a key symbol outside the alphabet makes
encrypt fail with the fixed key membership error; the failure value names
the violated input but not the offending symbol or its position. -/
theorem membership_failure (alphabet key m ct : List Char) :
    (key ≠ [] → (∀ c ∈ key, c.utf8Size = 1) → (∀ c ∈ key, c ∈ alphabet) →
      (∃ i, i < m.length ∧ m.getD i 'A' ∉ alphabet) →
      (with_alphabet key alphabet).encrypt m = Except.error plaintextErr)
    ∧ (key ≠ [] → (∀ c ∈ key, c.utf8Size = 1) → (∀ c ∈ key, c ∈ alphabet) →
      (∃ i, i < ct.length ∧ ct.getD i 'A' ∉ alphabet) →
      (with_alphabet key alphabet).decrypt ct = Except.error ciphertextErr)
    ∧ (key ≠ [] → (∀ c ∈ key, c.utf8Size = 1) → m ≠ [] → key.getD 0 'A' ∉ alphabet →
      (with_alphabet key alphabet).encrypt m = Except.error keyErr) := by
  refine ⟨?_, ?_, ?_⟩
  · intro hkey hascii hks hex
    have hklen : 0 < key.length := List.length_pos.mpr hkey
    have hbl : utf8Len key = key.length := utf8Len_of_single_byte key hascii
    have hmle : m.length ≤ utf8Len m := length_le_utf8Len m
    have hpk := pad_key_ok key m hkey hbl
    set padded := (List.range (utf8Len m)).map (fun i => key.getD (i % key.length) 'A')
      with hpdef
    have hplen : padded.length = utf8Len m := by simp [hpdef]
    have hpmem : ∀ i, i < m.length → padded.getD i 'A' ∈ alphabet := by
      intro i hi
      rw [hpdef, getD_map_range _ _ i (by omega)]
      exact hks _ (getD_mem key _ (Nat.mod_lt _ hklen))
    have hziplen : (m.zip padded).length = m.length := by
      rw [List.length_zip, hplen]
      omega
    have hfind : ∃ i, i < m.length ∧ m.getD i 'A' ∉ alphabet := hex
    set i0 := Nat.find hfind with hi0def
    obtain ⟨hi0lt, hi0bad⟩ := Nat.find_spec hfind
    have hcoll : collectE (fun pk => (with_alphabet key alphabet).encryptChar pk.1 pk.2)
        (m.zip padded) = Except.error plaintextErr := by
      apply collectE_error_at _ ('A', 'A') _ i0 _ (by omega)
      · intro j hj
        have hjm : j < m.length := by omega
        rw [getD_zip m padded j hjm (by omega)]
        have hjgood : m.getD j 'A' ∈ alphabet := by
          by_contra hbad
          exact absurd ⟨hjm, hbad⟩ (Nat.find_min hfind hj)
        obtain ⟨row, col, -, -, -, -, he⟩ :=
          encryptChar_eq alphabet key (m.getD j 'A') (padded.getD j 'A')
            hjgood (hpmem j hjm)
        exact ⟨_, he⟩
      · rw [getD_zip m padded i0 hi0lt (by omega)]
        obtain ⟨row, hrow⟩ := position_beq_isSome (padded.getD i0 'A') alphabet
          (hpmem i0 hi0lt)
        have hnone : position (fun c => c == m.getD i0 'A') alphabet = none :=
          (position_beq_eq_none _ _).mpr hi0bad
        exact encryptChar_plaintextErr (with_alphabet key alphabet) _ _ row hrow hnone
    unfold Vigenere.encrypt
    rw [show (with_alphabet key alphabet).key = key from rfl, hpk]
    exact hcoll
  · intro hkey hascii hks hex
    have hklen : 0 < key.length := List.length_pos.mpr hkey
    have hbl : utf8Len key = key.length := utf8Len_of_single_byte key hascii
    have hmle : ct.length ≤ utf8Len ct := length_le_utf8Len ct
    have hpk := pad_key_ok key ct hkey hbl
    set padded := (List.range (utf8Len ct)).map (fun i => key.getD (i % key.length) 'A')
      with hpdef
    have hplen : padded.length = utf8Len ct := by simp [hpdef]
    have hpmem : ∀ i, i < ct.length → padded.getD i 'A' ∈ alphabet := by
      intro i hi
      rw [hpdef, getD_map_range _ _ i (by omega)]
      exact hks _ (getD_mem key _ (Nat.mod_lt _ hklen))
    have hziplen : (ct.zip padded).length = ct.length := by
      rw [List.length_zip, hplen]
      omega
    have hfind : ∃ i, i < ct.length ∧ ct.getD i 'A' ∉ alphabet := hex
    set i0 := Nat.find hfind with hi0def
    obtain ⟨hi0lt, hi0bad⟩ := Nat.find_spec hfind
    have hcoll : collectE (fun ck => (with_alphabet key alphabet).decryptChar ck.1 ck.2)
        (ct.zip padded) = Except.error ciphertextErr := by
      apply collectE_error_at _ ('A', 'A') _ i0 _ (by omega)
      · intro j hj
        have hjm : j < ct.length := by omega
        rw [getD_zip ct padded j hjm (by omega)]
        have hjgood : ct.getD j 'A' ∈ alphabet := by
          by_contra hbad
          exact absurd ⟨hjm, hbad⟩ (Nat.find_min hfind hj)
        obtain ⟨p, hp⟩ := decryptChar_ok_of_mem alphabet key (ct.getD j 'A')
          (padded.getD j 'A') hjgood (hpmem j hjm)
        exact ⟨p, hp⟩
      · rw [getD_zip ct padded i0 hi0lt (by omega)]
        obtain ⟨row, hrow⟩ := position_beq_isSome (padded.getD i0 'A') alphabet
          (hpmem i0 hi0lt)
        obtain ⟨hrlt, -⟩ := position_beq_getD _ alphabet row hrow
        have hnotrow : ct.getD i0 'A' ∉ (matrix alphabet).getD row [] := by
          intro hmem
          exact hi0bad (mem_of_mem_matrix_row alphabet row _ hrlt hmem)
        have hnone : position (fun x => x == ct.getD i0 'A')
            ((matrix alphabet).getD row []) = none :=
          (position_beq_eq_none _ _).mpr hnotrow
        exact decryptChar_ciphertextErr (with_alphabet key alphabet) _ _ row hrow hnone
    unfold Vigenere.decrypt
    rw [show (with_alphabet key alphabet).key = key from rfl, hpk]
    exact hcoll
  · intro hkey hascii hm hbad
    have hklen : 0 < key.length := List.length_pos.mpr hkey
    have hbl : utf8Len key = key.length := utf8Len_of_single_byte key hascii
    have hmlen : 0 < m.length := List.length_pos.mpr hm
    have hmle : m.length ≤ utf8Len m := length_le_utf8Len m
    have hpk := pad_key_ok key m hkey hbl
    set padded := (List.range (utf8Len m)).map (fun i => key.getD (i % key.length) 'A')
      with hpdef
    have hplen : padded.length = utf8Len m := by simp [hpdef]
    have hziplen : (m.zip padded).length = m.length := by
      rw [List.length_zip, hplen]
      omega
    have hpad0 : padded.getD 0 'A' = key.getD 0 'A' := by
      rw [hpdef, getD_map_range _ _ 0 (by omega), Nat.zero_mod]
    have hcoll : collectE (fun pk => (with_alphabet key alphabet).encryptChar pk.1 pk.2)
        (m.zip padded) = Except.error keyErr := by
      apply collectE_error_at _ ('A', 'A') _ 0 _ (by omega)
      · intro j hj; omega
      · rw [getD_zip m padded 0 hmlen (by omega), hpad0]
        have hnone : position (fun c => c == key.getD 0 'A') alphabet = none :=
          (position_beq_eq_none _ _).mpr hbad
        exact encryptChar_keyErr (with_alphabet key alphabet) _ _ hnone
    unfold Vigenere.encrypt
    rw [show (with_alphabet key alphabet).key = key from rfl, hpk]
    exact hcoll

/-- Witness for C5 (amended): concrete out-of-alphabet plaintext, ciphertext
and key symbols produce the three fixed membership failures. -/
theorem membership_failure_witness :
    (with_alphabet ['l', 'e', 'm', 'o', 'n'] ALPHABET).encrypt ['A'] =
      Except.error plaintextErr ∧
    (with_alphabet ['l', 'e', 'm', 'o', 'n'] ALPHABET).decrypt ['A'] =
      Except.error ciphertextErr ∧
    (with_alphabet ['A'] ALPHABET).encrypt ['a'] = Except.error keyErr :=
  ⟨(membership_failure ALPHABET ['l', 'e', 'm', 'o', 'n'] ['A'] ['A']).1
      (by decide) (by decide) (by decide) ⟨0, by decide⟩,
   (membership_failure ALPHABET ['l', 'e', 'm', 'o', 'n'] ['A'] ['A']).2.1
      (by decide) (by decide) (by decide) ⟨0, by decide⟩,
   (membership_failure ALPHABET ['A'] ['a'] []).2.2
      (by decide) (by decide) (by decide) (by decide)⟩


theorem encryptChar_ok_inv (v : Vigenere) (p k c : Char)
    (h : v.encryptChar p k = Except.ok c) :
    ∃ row col, position (fun x => x == k) v.alphabet = some row ∧
      position (fun x => x == p) v.alphabet = some col ∧
      c = (v.matrix.getD row []).getD col 'A' := by
  unfold Vigenere.encryptChar at h
  cases h1 : position (fun x => x == k) v.alphabet with
  | none =>
    rw [h1] at h
    replace h : Except.error keyErr = Except.ok c := h
    exact Except.noConfusion h
  | some row =>
    rw [h1] at h
    cases h2 : position (fun x => x == p) v.alphabet with
    | none =>
      rw [h2] at h
      replace h : Except.error plaintextErr = Except.ok c := h
      exact Except.noConfusion h
    | some col =>
      rw [h2] at h
      replace h : Except.ok ((v.matrix.getD row []).getD col 'A') = Except.ok c := h
      injection h with h
      exact ⟨row, col, rfl, rfl, h.symm⟩

theorem decryptChar_ok_inv (v : Vigenere) (c k p : Char)
    (h : v.decryptChar c k = Except.ok p) :
    ∃ row col, position (fun x => x == k) v.alphabet = some row ∧
      position (fun x => x == c) (v.matrix.getD row []) = some col ∧
      p = v.alphabet.getD col 'A' := by
  unfold Vigenere.decryptChar at h
  cases h1 : position (fun x => x == k) v.alphabet with
  | none =>
    rw [h1] at h
    replace h : Except.error keyErr = Except.ok p := h
    exact Except.noConfusion h
  | some row =>
    rw [h1] at h
    replace h : (match position (fun x => x == c) (v.matrix.getD row []) with
      | none => Except.error ciphertextErr
      | some col => Except.ok (v.alphabet.getD col 'A')) = Except.ok p := h
    cases h2 : position (fun x => x == c) (v.matrix.getD row []) with
    | none =>
      rw [h2] at h
      replace h : Except.error ciphertextErr = Except.ok p := h
      exact Except.noConfusion h
    | some col =>
      rw [h2] at h
      replace h : Except.ok (v.alphabet.getD col 'A') = Except.ok p := h
      injection h with h
      exact ⟨row, col, rfl, h2, h.symm⟩

theorem encrypt_ok_inv (v : Vigenere) (m out : List Char)
    (h : v.encrypt m = Except.ok out) :
    ∃ padded, pad_key v.key m = Except.ok padded ∧
      collectE (fun pk => v.encryptChar pk.1 pk.2) (m.zip padded) = Except.ok out := by
  unfold Vigenere.encrypt at h
  cases hp : pad_key v.key m with
  | error e =>
    rw [hp] at h
    replace h : Except.error e = Except.ok out := h
    exact Except.noConfusion h
  | ok padded =>
    rw [hp] at h
    exact ⟨padded, rfl, h⟩

theorem decrypt_ok_inv (v : Vigenere) (ct out : List Char)
    (h : v.decrypt ct = Except.ok out) :
    ∃ padded, pad_key v.key ct = Except.ok padded ∧
      collectE (fun ck => v.decryptChar ck.1 ck.2) (ct.zip padded) = Except.ok out := by
  unfold Vigenere.decrypt at h
  cases hp : pad_key v.key ct with
  | error e =>
    rw [hp] at h
    replace h : Except.error e = Except.ok out := h
    exact Except.noConfusion h
  | ok padded =>
    rw [hp] at h
    exact ⟨padded, rfl, h⟩

theorem pad_key_ok_length (key message : List Char) (s : List Char)
    (h : pad_key key message = Except.ok s) : s.length = utf8Len message := by
  have := collectE_length (padKeyChar key) (List.range (utf8Len message)) s h
  simpa using this

theorem ne_of_position_min (q : Char) (l : List Char) (idx j : Nat)
    (hpos : position (fun x => x == q) l = some idx) (hj : j < idx) :
    l.getD j 'A' ≠ q := by
  obtain ⟨-, -, hmin⟩ := (position_eq_some_iff _ l idx).mp hpos
  intro heq
  have := hmin j hj
  rw [heq] at this
  simp at this


/-- Claim C10: membership resolution is first-match-wins. Whenever encrypt
succeeds, the row used at position i is the smallest alphabet index holding
the key-stream symbol and the column the smallest alphabet index holding the
plaintext symbol; whenever decrypt succeeds, the emitted symbol is
alphabet[col] for the smallest column col of the key row whose matrix entry
equals the ciphertext symbol. -/
theorem first_match_wins :
    (∀ alphabet key m out, (with_alphabet key alphabet).encrypt m = Except.ok out →
      ∀ i, i < m.length → ∃ padded row col,
        pad_key key m = Except.ok padded ∧
        row < alphabet.length ∧ alphabet.getD row 'A' = padded.getD i 'A' ∧
        (∀ j, j < row → alphabet.getD j 'A' ≠ padded.getD i 'A') ∧
        col < alphabet.length ∧ alphabet.getD col 'A' = m.getD i 'A' ∧
        (∀ j, j < col → alphabet.getD j 'A' ≠ m.getD i 'A') ∧
        out.getD i 'A' = ((matrix alphabet).getD row []).getD col 'A')
    ∧ (∀ alphabet key ct out, (with_alphabet key alphabet).decrypt ct = Except.ok out →
      ∀ i, i < ct.length → ∃ padded row col,
        pad_key key ct = Except.ok padded ∧
        row < alphabet.length ∧ alphabet.getD row 'A' = padded.getD i 'A' ∧
        (∀ j, j < row → alphabet.getD j 'A' ≠ padded.getD i 'A') ∧
        col < ((matrix alphabet).getD row []).length ∧
        ((matrix alphabet).getD row []).getD col 'A' = ct.getD i 'A' ∧
        (∀ j, j < col → ((matrix alphabet).getD row []).getD j 'A' ≠ ct.getD i 'A') ∧
        out.getD i 'A' = alphabet.getD col 'A') := by
  constructor
  · intro alphabet key m out henc i hi
    obtain ⟨padded, hpk, hcoll⟩ :=
      encrypt_ok_inv (with_alphabet key alphabet) m out henc
    replace hpk : pad_key key m = Except.ok padded := hpk
    have hplen : padded.length = utf8Len m := pad_key_ok_length key m padded hpk
    have hmle : m.length ≤ utf8Len m := length_le_utf8Len m
    have hziplen : (m.zip padded).length = m.length := by
      rw [List.length_zip, hplen]
      omega
    have hstep := collectE_getD
      (fun pk => (with_alphabet key alphabet).encryptChar pk.1 pk.2) ('A', 'A') 'A'
      (m.zip padded) out hcoll i (by omega)
    rw [getD_zip m padded i hi (by omega)] at hstep
    replace hstep : (with_alphabet key alphabet).encryptChar (m.getD i 'A')
        (padded.getD i 'A') = Except.ok (out.getD i 'A') := hstep
    obtain ⟨row, col, hrow, hcol, hval⟩ :=
      encryptChar_ok_inv (with_alphabet key alphabet) _ _ _ hstep
    replace hrow : position (fun x => x == padded.getD i 'A') alphabet = some row := hrow
    replace hcol : position (fun x => x == m.getD i 'A') alphabet = some col := hcol
    obtain ⟨hrlt, hrval, -⟩ := (position_eq_some_iff _ alphabet row).mp hrow
    obtain ⟨hclt, hcval, -⟩ := (position_eq_some_iff _ alphabet col).mp hcol
    refine ⟨padded, row, col, hpk, hrlt, by simpa using hrval,
      fun j hj => ne_of_position_min _ alphabet row j hrow hj,
      hclt, by simpa using hcval,
      fun j hj => ne_of_position_min _ alphabet col j hcol hj, ?_⟩
    rw [hval]
    rfl
  · intro alphabet key ct out hdec i hi
    obtain ⟨padded, hpk, hcoll⟩ :=
      decrypt_ok_inv (with_alphabet key alphabet) ct out hdec
    replace hpk : pad_key key ct = Except.ok padded := hpk
    have hplen : padded.length = utf8Len ct := pad_key_ok_length key ct padded hpk
    have hmle : ct.length ≤ utf8Len ct := length_le_utf8Len ct
    have hziplen : (ct.zip padded).length = ct.length := by
      rw [List.length_zip, hplen]
      omega
    have hstep := collectE_getD
      (fun ck => (with_alphabet key alphabet).decryptChar ck.1 ck.2) ('A', 'A') 'A'
      (ct.zip padded) out hcoll i (by omega)
    rw [getD_zip ct padded i hi (by omega)] at hstep
    replace hstep : (with_alphabet key alphabet).decryptChar (ct.getD i 'A')
        (padded.getD i 'A') = Except.ok (out.getD i 'A') := hstep
    obtain ⟨row, col, hrow, hcol, hval⟩ :=
      decryptChar_ok_inv (with_alphabet key alphabet) _ _ _ hstep
    replace hrow : position (fun x => x == padded.getD i 'A') alphabet = some row := hrow
    replace hcol : position (fun x => x == ct.getD i 'A')
        ((matrix alphabet).getD row []) = some col := hcol
    obtain ⟨hrlt, hrval, -⟩ := (position_eq_some_iff _ alphabet row).mp hrow
    obtain ⟨hclt, hcval, -⟩ :=
      (position_eq_some_iff _ ((matrix alphabet).getD row []) col).mp hcol
    refine ⟨padded, row, col, hpk, hrlt, by simpa using hrval,
      fun j hj => ne_of_position_min _ alphabet row j hrow hj,
      hclt, by simpa using hcval,
      fun j hj => ne_of_position_min _ ((matrix alphabet).getD row []) col j hcol hj, ?_⟩
    rw [hval]
    rfl


/-- Witness for C10 at the duplicate-carrying CAESAR alphabet with key A:
encrypting S and decrypting A both resolve through first matches. -/
theorem first_match_wins_witness :
    (∃ padded row col,
      pad_key ['A'] ['S'] = Except.ok padded ∧
      row < (['C', 'A', 'E', 'S', 'A', 'R'] : List Char).length ∧
      (['C', 'A', 'E', 'S', 'A', 'R'] : List Char).getD row 'A' = padded.getD 0 'A' ∧
      (∀ j, j < row →
        (['C', 'A', 'E', 'S', 'A', 'R'] : List Char).getD j 'A' ≠ padded.getD 0 'A') ∧
      col < (['C', 'A', 'E', 'S', 'A', 'R'] : List Char).length ∧
      (['C', 'A', 'E', 'S', 'A', 'R'] : List Char).getD col 'A' =
        (['S'] : List Char).getD 0 'A' ∧
      (∀ j, j < col →
        (['C', 'A', 'E', 'S', 'A', 'R'] : List Char).getD j 'A' ≠
          (['S'] : List Char).getD 0 'A') ∧
      (['A'] : List Char).getD 0 'A' =
        ((matrix ['C', 'A', 'E', 'S', 'A', 'R']).getD row []).getD col 'A')
    ∧ (∃ padded row col,
      pad_key ['A'] ['A'] = Except.ok padded ∧
      row < (['C', 'A', 'E', 'S', 'A', 'R'] : List Char).length ∧
      (['C', 'A', 'E', 'S', 'A', 'R'] : List Char).getD row 'A' = padded.getD 0 'A' ∧
      (∀ j, j < row →
        (['C', 'A', 'E', 'S', 'A', 'R'] : List Char).getD j 'A' ≠ padded.getD 0 'A') ∧
      col < ((matrix ['C', 'A', 'E', 'S', 'A', 'R']).getD row []).length ∧
      ((matrix ['C', 'A', 'E', 'S', 'A', 'R']).getD row []).getD col 'A' =
        (['A'] : List Char).getD 0 'A' ∧
      (∀ j, j < col →
        ((matrix ['C', 'A', 'E', 'S', 'A', 'R']).getD row []).getD j 'A' ≠
          (['A'] : List Char).getD 0 'A') ∧
      (['C'] : List Char).getD 0 'A' =
        (['C', 'A', 'E', 'S', 'A', 'R'] : List Char).getD col 'A') :=
  ⟨first_match_wins.1 ['C', 'A', 'E', 'S', 'A', 'R'] ['A'] ['S'] ['A'] rfl 0 (by decide),
   first_match_wins.2 ['C', 'A', 'E', 'S', 'A', 'R'] ['A'] ['A'] ['C'] rfl 0 (by decide)⟩

end Vgnr
